import Mathlib

set_option maxHeartbeats 1000000

/-!
Verification of the perfect-maze generator
(`src/perfect-maze-generator/src/lib.rs`).

The Rust code is shallowly embedded: the maze record and its methods become
Lean definitions, `Option` models Rust panics (`assert!`, `unwrap`, and
out-of-bounds indexing), and the `HashSet<usize>` cell sets of the wall
tumbling algorithm become `Finset Nat` (the only operations the source uses
are membership, union and emptiness, which are order-insensitive).

The seeded shuffle of the wall order comes from the external `rand` /
`rand_xoshiro` crates, whose code is not part of this repository; it is
modelled from the spec as a deterministic seeded permutation (see
`model_shuffle`).  All maze-shape theorems are proved for an arbitrary
processing order that enumerates the walls, so nothing depends on the
particular permutation the model produces.
-/

/-- The maze record, mirroring `struct PerfectMaze`: dimensions, seed, and the
boolean wall array (`true` = wall present). -/
structure PerfectMaze where
  columns : Nat
  rows : Nat
  seed : Nat
  walls : List Bool
deriving DecidableEq

/-- A cell of the maze, mirroring `struct Cell`. -/
structure Cell where
  row : Nat
  column : Nat
  total_columns : Nat
deriving DecidableEq

/-- Method `Cell::id`: the linear id of the cell within the maze. -/
def Cell.id (c : Cell) : Nat := c.row * c.total_columns + c.column

/-- Method `PerfectMaze::walls_per_row` (it depends only on the column count). -/
def walls_per_row (columns : Nat) : Nat := 2 * columns - 1

/-- Method `PerfectMaze::cell_pair_from_wall`: the two cells separated by a wall. -/
def cell_pair_from_wall (columns wall_id : Nat) : Cell × Cell :=
  let current_row := wall_id / walls_per_row columns
  let wall_in_row := wall_id % walls_per_row columns
  if wall_in_row < columns - 1 then
    (⟨current_row, wall_in_row, columns⟩, ⟨current_row, wall_in_row + 1, columns⟩)
  else
    let column := wall_in_row - (columns - 1)
    (⟨current_row, column, columns⟩, ⟨current_row + 1, column, columns⟩)

/-- Method `PerfectMaze::get_set_with_cell`: the index of the first set that contains
the cell. -/
def get_set_with_cell (cell_sets : List (Finset Nat)) (cell_id : Nat) : Option Nat :=
  cell_sets.findIdx? (fun s => decide (cell_id ∈ s))

/-- One iteration of the loop body of `PerfectMaze::tumble_walls`.  A `none`
result models a panic: a failed `unwrap` on `get_set_with_cell`, or an
out-of-bounds write into the wall array. -/
def tumble_step (columns : Nat) (st : List Bool × List (Finset Nat)) (current_wall : Nat) :
    Option (List Bool × List (Finset Nat)) :=
  let walls := st.1
  let cell_sets := st.2
  let cells := cell_pair_from_wall columns current_wall
  match get_set_with_cell cell_sets cells.1.id, get_set_with_cell cell_sets cells.2.id with
  | some id_set_a, some id_set_b =>
    if id_set_a ≠ id_set_b then
      if current_wall < walls.length then
        some (walls.set current_wall false,
          (cell_sets.set id_set_a
              (cell_sets.getD id_set_a ∅ ∪ cell_sets.getD id_set_b ∅)).set id_set_b ∅)
      else none
    else some (walls, cell_sets)
  | _, _ => none

/-- The singleton cell sets built at the top of `PerfectMaze::tumble_walls`. -/
def init_sets (total_cells : Nat) : List (Finset Nat) :=
  (List.range total_cells).map (fun index => {index})

/-- The loop of `PerfectMaze::tumble_walls` over the given wall order. -/
def tumble_loop (columns : Nat) (st : List Bool × List (Finset Nat)) :
    List Nat → Option (List Bool × List (Finset Nat))
  | [] => some st
  | w :: ws =>
    match tumble_step columns st w with
    | some st' => tumble_loop columns st' ws
    | none => none

/-- Method `PerfectMaze::tumble_walls` applied to a fresh wall array. -/
def tumble_walls (columns rows : Nat) (walls : List Bool) (wall_indices : List Nat) :
    Option (List Bool × List (Finset Nat)) :=
  tumble_loop columns (walls, init_sets (rows * columns)) wall_indices

/-- The wall-array length chosen in `PerfectMaze::new`:
`(columns - 1) * rows + (rows - 1) * columns`. -/
def total_walls (columns rows : Nat) : Nat :=
  (columns - 1) * rows + (rows - 1) * columns

/-- Modelled from the spec: one step of the 64-bit pseudo-random stream used by
the seeded shuffle.  The actual generator (`Xoshiro256StarStar` from the
`rand_xoshiro` crate) is external to this repository; any deterministic
function of the previous state is a faithful model of the spec's
"seeded pseudo-random generator". -/
def next_random (s : Nat) : Nat :=
  (6364136223846793005 * s + 1442695040888963407) % 18446744073709551616

/-- Modelled from the spec: the seeded Fisher-Yates shuffle performed by
`rand::seq::SliceRandom::shuffle`, whose code is external to this repository.
It repeatedly extracts a pseudo-randomly selected element, so it produces a
permutation of its input determined entirely by the seed. -/
def model_shuffle (s : Nat) (l : List Nat) : List Nat :=
  match l with
  | [] => []
  | x :: xs =>
    let k := s % (x :: xs).length
    (x :: xs).getD k 0 :: model_shuffle (next_random s) ((x :: xs).eraseIdx k)
termination_by l.length
decreasing_by
  simp only [List.length_eraseIdx, List.length_cons]
  split
  · omega
  · rename_i h
    exact absurd (Nat.mod_lt _ (Nat.succ_pos _)) h

/-- The wall-index order built in `PerfectMaze::new`: the identity order
`0 .. total_walls`, shuffled only when the seed is nonzero. -/
def wall_order (seed t : Nat) : List Nat :=
  let wall_indices := List.range t
  if seed ≠ 0 then model_shuffle seed wall_indices else wall_indices

/-- Constructor `PerfectMaze::new`.  A `none` result models a panic (the dimension
assertions, or any panic inside `tumble_walls`).  `seed` is the resolved seed
value: the `None` case of the Rust API first draws an arbitrary value from an
entropy source, so every behaviour of the original is an instance of some
`seed` here. -/
def PerfectMaze.new (columns rows seed : Nat) : Option PerfectMaze :=
  if columns = 0 ∨ rows = 0 then none
  else
    let walls := List.replicate (total_walls columns rows) true
    match tumble_walls columns rows walls (wall_order seed (total_walls columns rows)) with
    | some (walls', _) => some ⟨columns, rows, seed, walls'⟩
    | none => none

/-- Method `PerfectMaze::is_valid_cell`. -/
def PerfectMaze.is_valid_cell (m : PerfectMaze) (row column : Nat) : Option Unit :=
  if row ≥ m.rows ∨ column ≥ m.columns then none else some ()

/-- Method `PerfectMaze::get_right_wall`.  The `self.walls[wall_id]` read is modelled
with the safe indexing `·[·]?`; for every maze built by `new` the index is
proved to be in bounds, so the two coincide. -/
def PerfectMaze.get_right_wall (m : PerfectMaze) (row column : Nat) : Option Bool :=
  match m.is_valid_cell row column with
  | none => none
  | some _ =>
    if column = m.columns - 1 then some true
    else m.walls[row * walls_per_row m.columns + column]?

/-- Method `PerfectMaze::get_bottom_wall`. -/
def PerfectMaze.get_bottom_wall (m : PerfectMaze) (row column : Nat) : Option Bool :=
  match m.is_valid_cell row column with
  | none => none
  | some _ =>
    if row = m.rows - 1 then some true
    else m.walls[row * walls_per_row m.columns + (m.columns - 1) + column]?

/-- The `Display` implementation (`impl Display for PerfectMaze`), producing
the ASCII diagram.  The source `unwrap`s the two wall queries; that is
modelled with a `true` default, and the queries are proved to return `some`
for every in-grid cell. -/
def render (m : PerfectMaze) : String :=
  let vertical_walls := m.columns - 1
  let horizontal_walls := m.columns
  let top_wall_size := vertical_walls + horizontal_walls + 2
  String.mk (List.replicate top_wall_size '_') ++ "\n" ++
  String.join ((List.range m.rows).map (fun row =>
    "|" ++ String.join ((List.range m.columns).map (fun column =>
      (if (m.get_bottom_wall row column).getD true then "_" else " ") ++
      (if (m.get_right_wall row column).getD true then "|" else " "))) ++ "\n"))

/-! ### The state predicates of the tumbling algorithm -/

/-- Wall `w` is cleared in the wall array (out-of-range positions count as
present, which matches the initial `true` fill). -/
def clearedAt (walls : List Bool) (w : Nat) : Prop := walls.getD w true = false

instance clearedAt.decidable (walls : List Bool) (w : Nat) : Decidable (clearedAt walls w) := by
  unfold clearedAt; infer_instance

/-- Cell ids `a` and `b` are joined by some cleared wall. -/
def cleared_adj (columns : Nat) (walls : List Bool) (a b : Nat) : Prop :=
  ∃ w, clearedAt walls w ∧
    (((cell_pair_from_wall columns w).1.id = a ∧ (cell_pair_from_wall columns w).2.id = b) ∨
     ((cell_pair_from_wall columns w).1.id = b ∧ (cell_pair_from_wall columns w).2.id = a))

/-- Cell ids `a` and `b` are joined by some cleared wall other than `w0`. -/
def cleared_adj_except (columns : Nat) (walls : List Bool) (w0 a b : Nat) : Prop :=
  ∃ w, w ≠ w0 ∧ clearedAt walls w ∧
    (((cell_pair_from_wall columns w).1.id = a ∧ (cell_pair_from_wall columns w).2.id = b) ∨
     ((cell_pair_from_wall columns w).1.id = b ∧ (cell_pair_from_wall columns w).2.id = a))

/-- Cell ids `a` and `b` lie in a common cell set. -/
def same_set (cell_sets : List (Finset Nat)) (a b : Nat) : Prop :=
  ∃ i, i < cell_sets.length ∧ a ∈ cell_sets.getD i ∅ ∧ b ∈ cell_sets.getD i ∅

/-- The invariant maintained by `tumble_walls`: the wall array keeps its
length, the cell sets partition the cells, a cleared wall joins cells of one
set, every two cells of one set are joined by a chain of cleared walls, each
cleared wall is the only cleared connection between its two sides, and the
cleared-wall count balances the number of nonempty sets. -/
structure TumbleInv (c r : Nat) (walls : List Bool) (cell_sets : List (Finset Nat)) : Prop where
  hlen : walls.length = total_walls c r
  mem_lt : ∀ i x, x ∈ cell_sets.getD i ∅ → x < r * c
  exists_mem : ∀ x, x < r * c → ∃ i, i < cell_sets.length ∧ x ∈ cell_sets.getD i ∅
  unique : ∀ x i j, x ∈ cell_sets.getD i ∅ → x ∈ cell_sets.getD j ∅ → i = j
  cleared_same : ∀ w, clearedAt walls w →
    same_set cell_sets (cell_pair_from_wall c w).1.id (cell_pair_from_wall c w).2.id
  same_reach : ∀ a b, same_set cell_sets a b →
    Relation.ReflTransGen (cleared_adj c walls) a b
  bridge : ∀ w, clearedAt walls w →
    ¬ Relation.ReflTransGen (cleared_adj_except c walls w)
        (cell_pair_from_wall c w).1.id (cell_pair_from_wall c w).2.id
  count : walls.count false + cell_sets.countP (fun s => decide s.Nonempty) = r * c


/-- The graph on the maze's cells whose edges are the cleared walls. -/
def mazeGraph (m : PerfectMaze) : SimpleGraph (Fin (m.rows * m.columns)) where
  Adj a b := a ≠ b ∧ cleared_adj m.columns m.walls a.val b.val
  symm := by
    rintro a b ⟨hne, w, hw, hp⟩
    exact ⟨hne.symm, w, hw, hp.symm⟩
  loopless := by
    rintro a ⟨hne, -⟩
    exact hne rfl

/-- An ordered pair of adjacent grid cells: the second cell is the right or
the bottom neighbour of the first, and both lie inside the `r` by `c` grid. -/
def grid_adj_pair (c r : Nat) (p : Cell × Cell) : Prop :=
  p.1.total_columns = c ∧ p.2.total_columns = c ∧
  p.1.row < r ∧ p.1.column < c ∧ p.2.row < r ∧ p.2.column < c ∧
  ((p.2.row = p.1.row ∧ p.2.column = p.1.column + 1) ∨
   (p.2.row = p.1.row + 1 ∧ p.2.column = p.1.column))

/-! ### Arithmetic facts about the wall layout -/

lemma walls_per_row_pos {c : Nat} (hc : 1 ≤ c) : 0 < walls_per_row c := by
  unfold walls_per_row; omega

lemma total_walls_eq {c r : Nat} (hc : 1 ≤ c) (hr : 1 ≤ r) :
    total_walls c r = (r - 1) * walls_per_row c + (c - 1) := by
  obtain ⟨c', rfl⟩ : ∃ c', c = c' + 1 := ⟨c - 1, by omega⟩
  obtain ⟨r', rfl⟩ : ∃ r', r = r' + 1 := ⟨r - 1, by omega⟩
  unfold total_walls walls_per_row
  have h1 : c' + 1 - 1 = c' := by omega
  have h2 : r' + 1 - 1 = r' := by omega
  have h3 : 2 * (c' + 1) - 1 = 2 * c' + 1 := by omega
  rw [h1, h2, h3]; ring

lemma div_mod_decomp {c : Nat} (hc : 1 ≤ c) (q k : Nat) (hk : k < walls_per_row c) :
    (q * walls_per_row c + k) / walls_per_row c = q ∧
    (q * walls_per_row c + k) % walls_per_row c = k := by
  have hm : 0 < walls_per_row c := walls_per_row_pos hc
  constructor
  · rw [Nat.add_comm, Nat.add_mul_div_right _ _ hm, Nat.div_eq_of_lt hk, Nat.zero_add]
  · rw [Nat.add_comm, Nat.add_mul_mod_self_right, Nat.mod_eq_of_lt hk]

lemma lt_total_walls_iff {c r : Nat} (hc : 1 ≤ c) (hr : 1 ≤ r) {q k : Nat}
    (hk : k < walls_per_row c) :
    q * walls_per_row c + k < total_walls c r ↔ q < r - 1 ∨ (q = r - 1 ∧ k < c - 1) := by
  rw [total_walls_eq hc hr]
  have hcm : c - 1 < walls_per_row c := by unfold walls_per_row; omega
  rcases Nat.lt_trichotomy q (r - 1) with hq | hq | hq
  · have h1 : (q + 1) * walls_per_row c ≤ (r - 1) * walls_per_row c :=
      Nat.mul_le_mul_right _ (by omega)
    have h2 : (q + 1) * walls_per_row c = q * walls_per_row c + walls_per_row c := by ring
    constructor
    · intro _; exact Or.inl hq
    · intro _; linarith
  · subst hq
    constructor
    · intro h
      refine Or.inr ⟨rfl, ?_⟩; linarith
    · rintro (h | ⟨-, h⟩)
      · omega
      · linarith
  · have h1 : (r - 1 + 1) * walls_per_row c ≤ q * walls_per_row c :=
      Nat.mul_le_mul_right _ (by omega)
    have h2 : (r - 1 + 1) * walls_per_row c = (r - 1) * walls_per_row c + walls_per_row c := by
      ring
    constructor
    · intro h; linarith
    · rintro (h | ⟨h, -⟩) <;> omega

lemma vertical_wall_lt {c r : Nat} (hc : 1 ≤ c) (hr : 1 ≤ r) {q k : Nat}
    (hq : q < r) (hk : k < c - 1) :
    q * walls_per_row c + k < total_walls c r := by
  have hk' : k < walls_per_row c := by unfold walls_per_row; omega
  exact (lt_total_walls_iff hc hr hk').mpr (by omega)

lemma horizontal_wall_lt {c r : Nat} (hc : 1 ≤ c) (hr : 1 ≤ r) {q col : Nat}
    (hq : q + 1 < r) (hcol : col < c) :
    q * walls_per_row c + (c - 1) + col < total_walls c r := by
  have hk' : c - 1 + col < walls_per_row c := by unfold walls_per_row; omega
  have heq : q * walls_per_row c + (c - 1) + col
      = q * walls_per_row c + (c - 1 + col) := by ring
  rw [heq]
  exact (lt_total_walls_iff hc hr hk').mpr (by omega)

lemma cell_pair_from_wall_vertical {c : Nat} (hc : 1 ≤ c) {q k : Nat} (hk : k < c - 1) :
    cell_pair_from_wall c (q * walls_per_row c + k) = (⟨q, k, c⟩, ⟨q, k + 1, c⟩) := by
  have hk' : k < walls_per_row c := by unfold walls_per_row; omega
  obtain ⟨hdiv, hmod⟩ := div_mod_decomp hc q k hk'
  simp only [cell_pair_from_wall, hdiv, hmod, if_pos hk]

lemma cell_pair_from_wall_horizontal {c : Nat} (hc : 1 ≤ c) {q col : Nat} (hcol : col < c) :
    cell_pair_from_wall c (q * walls_per_row c + (c - 1) + col)
      = (⟨q, col, c⟩, ⟨q + 1, col, c⟩) := by
  have hk' : c - 1 + col < walls_per_row c := by unfold walls_per_row; omega
  have heq : q * walls_per_row c + (c - 1) + col
      = q * walls_per_row c + (c - 1 + col) := by ring
  rw [heq]
  obtain ⟨hdiv, hmod⟩ := div_mod_decomp hc q _ hk'
  have hnv : ¬(c - 1 + col < c - 1) := by omega
  have hsub : c - 1 + col - (c - 1) = col := by omega
  simp only [cell_pair_from_wall, hdiv, hmod, if_neg hnv, hsub]

/-- Every valid wall id is either a vertical wall between two horizontally
adjacent cells or a horizontal wall between two vertically adjacent cells. -/
lemma cell_pair_valid {c r w : Nat} (hc : 1 ≤ c) (hr : 1 ≤ r) (hw : w < total_walls c r) :
    (∃ q k, q < r ∧ k < c - 1 ∧ w = q * walls_per_row c + k ∧
      cell_pair_from_wall c w = (⟨q, k, c⟩, ⟨q, k + 1, c⟩)) ∨
    (∃ q col, q + 1 < r ∧ col < c ∧ w = q * walls_per_row c + (c - 1) + col ∧
      cell_pair_from_wall c w = (⟨q, col, c⟩, ⟨q + 1, col, c⟩)) := by
  have hm : 0 < walls_per_row c := walls_per_row_pos hc
  obtain ⟨q, k, rfl, hk⟩ : ∃ q k, w = q * walls_per_row c + k ∧ k < walls_per_row c := by
    refine ⟨w / walls_per_row c, w % walls_per_row c, ?_, Nat.mod_lt _ hm⟩
    rw [Nat.mul_comm]; exact (Nat.div_add_mod w _).symm
  have hshape := (lt_total_walls_iff hc hr hk).mp hw
  by_cases hv : k < c - 1
  · refine Or.inl ⟨q, k, by omega, hv, rfl, cell_pair_from_wall_vertical hc hv⟩
  · obtain ⟨col, rfl⟩ : ∃ col, k = c - 1 + col := ⟨k - (c - 1), by omega⟩
    have hcol : col < c := by unfold walls_per_row at hk; omega
    have hq : q + 1 < r := by omega
    refine Or.inr ⟨q, col, hq, hcol, by ring, ?_⟩
    have heq : q * walls_per_row c + (c - 1 + col)
        = q * walls_per_row c + (c - 1) + col := by ring
    rw [heq]
    exact cell_pair_from_wall_horizontal hc hcol

/-- Both cell ids of a valid wall lie inside the grid, and the first is
strictly below the second. -/
lemma cell_pair_id_lt {c r w : Nat} (hc : 1 ≤ c) (hr : 1 ≤ r) (hw : w < total_walls c r) :
    (cell_pair_from_wall c w).1.id < r * c ∧ (cell_pair_from_wall c w).2.id < r * c ∧
    (cell_pair_from_wall c w).1.id < (cell_pair_from_wall c w).2.id := by
  rcases cell_pair_valid hc hr hw with ⟨q, k, hq, hk, -, hpair⟩ | ⟨q, col, hq, hcol, -, hpair⟩
  · rw [hpair]
    simp only [Cell.id]
    have h1 : (q + 1) * c ≤ r * c := Nat.mul_le_mul_right _ (by omega)
    have h2 : (q + 1) * c = q * c + c := by ring
    have hk1 : k < c := by omega
    have hk2 : k + 1 < c := by omega
    refine ⟨by linarith, by linarith, by omega⟩
  · rw [hpair]
    simp only [Cell.id]
    have h1 : (q + 2) * c ≤ r * c := Nat.mul_le_mul_right _ (by omega)
    have h2 : (q + 2) * c = q * c + c + c := by ring
    have h3 : (q + 1) * c = q * c + c := by ring
    refine ⟨by linarith, by linarith, by linarith⟩

/-! ### List helper lemmas -/

lemma getD_set_self {α : Type} {l : List α} {i : Nat} {a d : α} (h : i < l.length) :
    (l.set i a).getD i d = a := by
  rw [List.getD_eq_getElem?_getD, List.getElem?_set_self h]; rfl

lemma getD_set_ne {α : Type} {l : List α} {i j : Nat} {a d : α} (h : i ≠ j) :
    (l.set i a).getD j d = l.getD j d := by
  rw [List.getD_eq_getElem?_getD, List.getElem?_set_ne h, ← List.getD_eq_getElem?_getD]

lemma getD_mem_of_lt {α : Type} {l : List α} {i : Nat} (d : α) (h : i < l.length) :
    l.getD i d ∈ l := by
  have heq : l.getD i d = l[i] := by
    rw [List.getD_eq_getElem?_getD, List.getElem?_eq_getElem h]; rfl
  rw [heq]
  exact List.getElem_mem h

lemma exists_getD_of_mem {α : Type} {l : List α} {x : α} (d : α) (h : x ∈ l) :
    ∃ i, i < l.length ∧ l.getD i d = x := by
  obtain ⟨i, hi, rfl⟩ := List.mem_iff_getElem.mp h
  exact ⟨i, hi, by rw [List.getD_eq_getElem?_getD, List.getElem?_eq_getElem hi]; rfl⟩

lemma findIdx?_some_of_exists {α : Type} {p : α → Bool} :
    ∀ (l : List α) (i : Nat), (∃ x ∈ l, p x = true) → (List.findIdx? p l i).isSome = true := by
  intro l
  induction l with
  | nil =>
    intro i h
    rcases h with ⟨x, hx, -⟩
    simp at hx
  | cons y t ih =>
    intro i h
    rw [List.findIdx?_cons]
    by_cases hy : p y = true
    · simp [hy]
    · rw [if_neg hy]
      rcases h with ⟨x, hx, hpx⟩
      rcases List.mem_cons.mp hx with rfl | hx'
      · exact absurd hpx hy
      · exact ih (i + 1) ⟨x, hx', hpx⟩

lemma findIdx?_some_spec {α : Type} {p : α → Bool} (d : α) :
    ∀ (l : List α) (i j : Nat), List.findIdx? p l i = some j →
      ∃ k, j = i + k ∧ k < l.length ∧ p (l.getD k d) = true := by
  intro l
  induction l with
  | nil =>
    intro i j h
    rw [List.findIdx?_nil] at h
    cases h
  | cons y t ih =>
    intro i j h
    rw [List.findIdx?_cons] at h
    by_cases hy : p y = true
    · rw [if_pos hy] at h
      cases h
      refine ⟨0, by omega, by simp, ?_⟩
      simp only [List.getD_cons_zero]
      exact hy
    · rw [if_neg hy] at h
      obtain ⟨k, hk0, hklen, hp⟩ := ih (i + 1) j h
      refine ⟨k + 1, by omega, by simp; omega, ?_⟩
      simp only [List.getD_cons_succ]
      exact hp

lemma countP_set_stay {α : Type} {p : α → Bool} (d : α) :
    ∀ (l : List α) (i : Nat) (a : α), i < l.length →
      p (l.getD i d) = true → p a = true →
      (l.set i a).countP p = l.countP p := by
  intro l
  induction l with
  | nil => intro i a h; simp at h
  | cons y t ih =>
    intro i a h hold hnew
    cases i with
    | zero =>
      simp only [List.getD_cons_zero] at hold
      simp [List.countP_cons, hold, hnew]
    | succ n =>
      have h' : n < t.length := by simpa using h
      simp only [List.getD_cons_succ] at hold
      simp only [List.set_cons_succ, List.countP_cons]
      rw [ih n a h' hold hnew]

lemma countP_set_drop {α : Type} {p : α → Bool} (d : α) :
    ∀ (l : List α) (i : Nat) (a : α), i < l.length →
      p (l.getD i d) = true → p a = false →
      (l.set i a).countP p + 1 = l.countP p := by
  intro l
  induction l with
  | nil => intro i a h; simp at h
  | cons y t ih =>
    intro i a h hold hnew
    cases i with
    | zero =>
      simp only [List.getD_cons_zero] at hold
      simp [List.countP_cons, hold, hnew]
    | succ n =>
      have h' : n < t.length := by simpa using h
      simp only [List.getD_cons_succ] at hold
      have ih' := ih n a h' hold hnew
      simp only [List.set_cons_succ, List.countP_cons]
      by_cases hy : p y = true <;> simp [hy] <;> omega

lemma countP_eq_one_of_unique {α : Type} {p : α → Bool} (d : α) :
    ∀ (l : List α) (i : Nat), i < l.length → p (l.getD i d) = true →
      (∀ j, j < l.length → p (l.getD j d) = true → j = i) →
      l.countP p = 1 := by
  intro l
  induction l with
  | nil => intro i h; simp at h
  | cons y t ih =>
    intro i h hp huniq
    cases i with
    | zero =>
      simp only [List.getD_cons_zero] at hp
      have ht : t.countP p = 0 := by
        rw [List.countP_eq_zero]
        intro x hx hpx
        obtain ⟨j, hj, hgj⟩ := exists_getD_of_mem d hx
        have := huniq (j + 1) (by simp; omega)
          (by simp only [List.getD_cons_succ]; rw [hgj]; exact hpx)
        omega
      simp [List.countP_cons, hp, ht]
    | succ n =>
      have h' : n < t.length := by simpa using h
      simp only [List.getD_cons_succ] at hp
      have hy : p y = false := by
        by_contra hy'
        have hpy : p y = true := by
          cases hpyv : p y
          · exact absurd hpyv hy'
          · rfl
        have : (0 : Nat) = n + 1 :=
          huniq 0 (by simp) (by simp only [List.getD_cons_zero]; exact hpy)
        omega
      have := ih n h' hp (fun j hj hpj => by
        have := huniq (j + 1) (by simp; omega)
          (by simp only [List.getD_cons_succ]; exact hpj)
        omega)
      simp [List.countP_cons, hy, this]

lemma count_false_set :
    ∀ (l : List Bool) (i : Nat), i < l.length → l.getD i true = true →
      (l.set i false).count false = l.count false + 1 := by
  intro l
  induction l with
  | nil => intro i h; simp at h
  | cons y t ih =>
    intro i h hold
    cases i with
    | zero =>
      simp only [List.getD_cons_zero] at hold
      subst hold
      simp [List.count_cons]
    | succ n =>
      have h' : n < t.length := by simpa using h
      simp only [List.getD_cons_succ] at hold
      have ih' := ih n h' hold
      simp only [List.set_cons_succ, List.count_cons]
      cases y <;> simp <;> omega


lemma same_set_symm {cell_sets : List (Finset Nat)} {a b : Nat}
    (h : same_set cell_sets a b) : same_set cell_sets b a := by
  obtain ⟨i, hi, ha, hb⟩ := h
  exact ⟨i, hi, hb, ha⟩

lemma same_set_trans {cell_sets : List (Finset Nat)} {a b e : Nat}
    (huniq : ∀ x i j, x ∈ cell_sets.getD i ∅ → x ∈ cell_sets.getD j ∅ → i = j)
    (h1 : same_set cell_sets a b) (h2 : same_set cell_sets b e) : same_set cell_sets a e := by
  obtain ⟨i, hi, ha, hb⟩ := h1
  obtain ⟨j, hj, hb', he⟩ := h2
  cases huniq b i j hb hb'
  exact ⟨i, hi, ha, he⟩

lemma clearedAt_lt_length {walls : List Bool} {w : Nat} (h : clearedAt walls w) :
    w < walls.length := by
  by_contra h'
  unfold clearedAt at h
  rw [List.getD_eq_getElem?_getD, List.getElem?_eq_none (by omega)] at h
  simp at h

lemma clearedAt_set_false_self {walls : List Bool} {w : Nat} (h : w < walls.length) :
    clearedAt (walls.set w false) w := by
  unfold clearedAt
  rw [getD_set_self h]

lemma clearedAt_set_false_iff {walls : List Bool} {w0 w : Nat} :
    clearedAt (walls.set w0 false) w ↔ (w = w0 ∧ w0 < walls.length) ∨ clearedAt walls w := by
  by_cases hw : w = w0
  · subst hw
    by_cases h : w < walls.length
    · simp [clearedAt_set_false_self h, h]
    · have hnoop : walls.set w false = walls := List.set_eq_of_length_le (by omega)
      rw [hnoop]
      simp [h]
  · unfold clearedAt
    rw [getD_set_ne (fun hh => hw hh.symm)]
    constructor
    · intro h; exact Or.inr h
    · rintro (⟨rfl, -⟩ | h)
      · exact absurd rfl hw
      · exact h

lemma cleared_adj_symm {c : Nat} {walls : List Bool} {a b : Nat}
    (h : cleared_adj c walls a b) : cleared_adj c walls b a := by
  obtain ⟨w, hw, hp⟩ := h
  exact ⟨w, hw, hp.symm⟩

lemma cleared_adj_except_symm {c : Nat} {walls : List Bool} {w0 a b : Nat}
    (h : cleared_adj_except c walls w0 a b) : cleared_adj_except c walls w0 b a := by
  obtain ⟨w, hww, hw, hp⟩ := h
  exact ⟨w, hww, hw, hp.symm⟩

lemma cleared_adj_set_mono {c : Nat} {walls : List Bool} {w0 a b : Nat}
    (h : cleared_adj c walls a b) : cleared_adj c (walls.set w0 false) a b := by
  obtain ⟨w, hw, hp⟩ := h
  exact ⟨w, clearedAt_set_false_iff.mpr (Or.inr hw), hp⟩

lemma cleared_adj_except_set_self {c : Nat} {walls : List Bool} {w0 a b : Nat} :
    cleared_adj_except c (walls.set w0 false) w0 a b ↔ cleared_adj_except c walls w0 a b := by
  constructor
  · rintro ⟨w, hww, hw, hp⟩
    rcases clearedAt_set_false_iff.mp hw with ⟨rfl, -⟩ | hw'
    · exact absurd rfl hww
    · exact ⟨w, hww, hw', hp⟩
  · rintro ⟨w, hww, hw, hp⟩
    exact ⟨w, hww, clearedAt_set_false_iff.mpr (Or.inr hw), hp⟩

lemma cleared_adj_except_le {c : Nat} {walls : List Bool} {w0 a b : Nat}
    (h : cleared_adj_except c walls w0 a b) : cleared_adj c walls a b := by
  obtain ⟨w, -, hw, hp⟩ := h
  exact ⟨w, hw, hp⟩

lemma reflTransGen_symm {R : Nat → Nat → Prop} (hs : ∀ u v, R u v → R v u) {x y : Nat}
    (h : Relation.ReflTransGen R x y) : Relation.ReflTransGen R y x := by
  induction h with
  | refl => exact Relation.ReflTransGen.refl
  | tail _ hstep ih =>
    exact Relation.ReflTransGen.trans (Relation.ReflTransGen.single (hs _ _ hstep)) ih

/-- Splitting a reflexive-transitive chain over a relation extended with the
single (undirected) edge `a - b`. -/
lemma reach_add_edge {R : Nat → Nat → Prop} {a b : Nat} :
    ∀ {x y : Nat},
      Relation.ReflTransGen (fun u v => R u v ∨ ((u = a ∧ v = b) ∨ (u = b ∧ v = a))) x y →
      Relation.ReflTransGen R x y ∨
      (Relation.ReflTransGen R x a ∧ Relation.ReflTransGen R b y) ∨
      (Relation.ReflTransGen R x b ∧ Relation.ReflTransGen R a y) := by
  intro x y h
  induction h with
  | refl => exact Or.inl Relation.ReflTransGen.refl
  | tail _ hstep ih =>
    rcases hstep with hR | ⟨rfl, rfl⟩ | ⟨rfl, rfl⟩
    · rcases ih with h1 | ⟨h1, h2⟩ | ⟨h1, h2⟩
      · exact Or.inl (h1.tail hR)
      · exact Or.inr (Or.inl ⟨h1, h2.tail hR⟩)
      · exact Or.inr (Or.inr ⟨h1, h2.tail hR⟩)
    · rcases ih with h1 | ⟨h1, h2⟩ | ⟨h1, h2⟩
      · exact Or.inr (Or.inl ⟨h1, Relation.ReflTransGen.refl⟩)
      · exact Or.inr (Or.inl ⟨h1, Relation.ReflTransGen.refl⟩)
      · exact Or.inl h1
    · rcases ih with h1 | ⟨h1, h2⟩ | ⟨h1, h2⟩
      · exact Or.inr (Or.inr ⟨h1, Relation.ReflTransGen.refl⟩)
      · exact Or.inl h1
      · exact Or.inr (Or.inr ⟨h1, Relation.ReflTransGen.refl⟩)

/-- A chain over a relation whose steps stay inside single cell sets ends in
the set where it starts. -/
lemma reach_imp_same_set {cell_sets : List (Finset Nat)} {S : Nat → Nat → Prop}
    (huniq : ∀ x i j, x ∈ cell_sets.getD i ∅ → x ∈ cell_sets.getD j ∅ → i = j)
    (hadj : ∀ u v, S u v → same_set cell_sets u v) {x y : Nat}
    (h : Relation.ReflTransGen S x y) : x = y ∨ same_set cell_sets x y := by
  induction h with
  | refl => exact Or.inl rfl
  | tail _ hstep ih =>
    rcases ih with rfl | hsame
    · exact Or.inr (hadj _ _ hstep)
    · exact Or.inr (same_set_trans huniq hsame (hadj _ _ hstep))

lemma get_set_with_cell_some {cell_sets : List (Finset Nat)} {x : Nat}
    (h : ∃ i, i < cell_sets.length ∧ x ∈ cell_sets.getD i ∅) :
    ∃ j, get_set_with_cell cell_sets x = some j ∧ j < cell_sets.length ∧
      x ∈ cell_sets.getD j ∅ := by
  obtain ⟨i, hi, hmem⟩ := h
  have hex : ∃ s ∈ cell_sets, decide (x ∈ s) = true :=
    ⟨cell_sets.getD i ∅, getD_mem_of_lt ∅ hi, by simpa using hmem⟩
  have hsome := findIdx?_some_of_exists cell_sets 0 hex
  obtain ⟨j, hj⟩ := Option.isSome_iff_exists.mp hsome
  obtain ⟨k, hk0, hklen, hp⟩ := findIdx?_some_spec ∅ cell_sets 0 j hj
  have hjk : j = k := by omega
  rw [← hjk] at hklen hp
  exact ⟨j, hj, hklen, by simpa using hp⟩

/-- Clearing wall `w0` adds exactly the undirected edge between its two cells
to the `w'`-avoiding adjacency relation, for `w' ≠ w0`. -/
lemma cleared_adj_except_set_other {c : Nat} {walls : List Bool} {w0 w' a b : Nat}
    (hne : w' ≠ w0) (hl : w0 < walls.length) :
    cleared_adj_except c (walls.set w0 false) w' a b ↔
      cleared_adj_except c walls w' a b ∨
      (((cell_pair_from_wall c w0).1.id = a ∧ (cell_pair_from_wall c w0).2.id = b) ∨
       ((cell_pair_from_wall c w0).1.id = b ∧ (cell_pair_from_wall c w0).2.id = a)) := by
  constructor
  · rintro ⟨w, hww, hw, hp⟩
    rcases clearedAt_set_false_iff.mp hw with ⟨rfl, -⟩ | hw'
    · exact Or.inr hp
    · exact Or.inl ⟨w, hww, hw', hp⟩
  · rintro (⟨w, hww, hw, hp⟩ | hp)
    · exact ⟨w, hww, clearedAt_set_false_iff.mpr (Or.inr hw), hp⟩
    · exact ⟨w0, fun hh => hne hh.symm, clearedAt_set_false_self hl, hp⟩

lemma sameOrEq_trans {cell_sets : List (Finset Nat)} {a b e : Nat}
    (huniq : ∀ x i j, x ∈ cell_sets.getD i ∅ → x ∈ cell_sets.getD j ∅ → i = j)
    (h1 : a = b ∨ same_set cell_sets a b) (h2 : b = e ∨ same_set cell_sets b e) :
    a = e ∨ same_set cell_sets a e := by
  rcases h1 with rfl | h1
  · exact h2
  · rcases h2 with rfl | h2
    · exact Or.inr h1
    · exact Or.inr (same_set_trans huniq h1 h2)

lemma sameOrEq_symm {cell_sets : List (Finset Nat)} {a b : Nat}
    (h : a = b ∨ same_set cell_sets a b) : b = a ∨ same_set cell_sets b a := by
  rcases h with rfl | h
  · exact Or.inl rfl
  · exact Or.inr (same_set_symm h)

/-- A chain of cleared-wall steps only ever joins cells that a common set
already contains (given the `cleared_same` part of the invariant). -/
lemma reach_cleared_sameOrEq {c r : Nat} {walls : List Bool} {cell_sets : List (Finset Nat)}
    (inv : TumbleInv c r walls cell_sets) {x y : Nat}
    (h : Relation.ReflTransGen (cleared_adj c walls) x y) :
    x = y ∨ same_set cell_sets x y := by
  refine reach_imp_same_set inv.unique ?_ h
  rintro u v ⟨w, hw, hp⟩
  have hsame := inv.cleared_same w hw
  rcases hp with ⟨rfl, rfl⟩ | ⟨rfl, rfl⟩
  · exact hsame
  · exact same_set_symm hsame

/-- One `tumble_step` on a valid wall id succeeds, preserves the invariant,
keeps every existing merge, and joins the two cells of the processed wall. -/
lemma tumble_step_inv {c r : Nat} (hc : 1 ≤ c) (hr : 1 ≤ r)
    {walls : List Bool} {cell_sets : List (Finset Nat)}
    (inv : TumbleInv c r walls cell_sets) {w : Nat} (hw : w < total_walls c r) :
    ∃ walls' cell_sets',
      tumble_step c (walls, cell_sets) w = some (walls', cell_sets') ∧
      TumbleInv c r walls' cell_sets' ∧
      (∀ a b, same_set cell_sets a b → same_set cell_sets' a b) ∧
      same_set cell_sets' (cell_pair_from_wall c w).1.id (cell_pair_from_wall c w).2.id := by
  obtain ⟨hA, hB, hAB⟩ := cell_pair_id_lt hc hr hw
  obtain ⟨iA, hiA, hiAlt, hiAmem⟩ := get_set_with_cell_some (inv.exists_mem _ hA)
  obtain ⟨iB, hiB, hiBlt, hiBmem⟩ := get_set_with_cell_some (inv.exists_mem _ hB)
  by_cases hne : iA = iB
  · refine ⟨walls, cell_sets, ?_, inv, fun a b h => h,
      ⟨iA, hiAlt, hiAmem, by rw [hne]; exact hiBmem⟩⟩
    simp only [tumble_step, hiA, hiB, hne]
    simp
  · have hwlen : w < walls.length := by rw [inv.hlen]; exact hw
    have hnotsame : ¬ same_set cell_sets (cell_pair_from_wall c w).1.id
        (cell_pair_from_wall c w).2.id := by
      rintro ⟨j, hj, hAj, hBj⟩
      exact hne ((inv.unique _ iA j hiAmem hAj).trans (inv.unique _ iB j hiBmem hBj).symm)
    have wtrue : walls.getD w true = true := by
      by_contra hfalse
      have hcl : clearedAt walls w := by
        unfold clearedAt
        cases hv : walls.getD w true
        · rfl
        · exact absurd hv hfalse
      exact hnotsame (inv.cleared_same w hcl)
    have hstep : tumble_step c (walls, cell_sets) w = some
        (walls.set w false,
          (cell_sets.set iA (cell_sets.getD iA ∅ ∪ cell_sets.getD iB ∅)).set iB ∅) := by
      simp only [tumble_step, hiA, hiB]
      rw [if_pos hne, if_pos hwlen]
    have hlen' : ((cell_sets.set iA (cell_sets.getD iA ∅ ∪ cell_sets.getD iB ∅)).set iB
        ∅).length = cell_sets.length := by
      rw [List.length_set, List.length_set]
    have hBA : iB ≠ iA := fun h => hne h.symm
    have hgetA : ((cell_sets.set iA (cell_sets.getD iA ∅ ∪ cell_sets.getD iB ∅)).set iB
        ∅).getD iA ∅ = cell_sets.getD iA ∅ ∪ cell_sets.getD iB ∅ := by
      rw [getD_set_ne hBA, getD_set_self hiAlt]
    have hgetB : ((cell_sets.set iA (cell_sets.getD iA ∅ ∪ cell_sets.getD iB ∅)).set iB
        ∅).getD iB ∅ = ∅ := by
      rw [getD_set_self (by rw [List.length_set]; exact hiBlt)]
    have hgetOther : ∀ j, j ≠ iA → j ≠ iB →
        ((cell_sets.set iA (cell_sets.getD iA ∅ ∪ cell_sets.getD iB ∅)).set iB
          ∅).getD j ∅ = cell_sets.getD j ∅ := by
      intro j hj hj2
      rw [getD_set_ne (fun h => hj2 h.symm), getD_set_ne (fun h => hj h.symm)]
    have hmem' : ∀ j x, x ∈ ((cell_sets.set iA (cell_sets.getD iA ∅ ∪ cell_sets.getD iB
        ∅)).set iB ∅).getD j ∅ →
        (j = iA ∧ (x ∈ cell_sets.getD iA ∅ ∨ x ∈ cell_sets.getD iB ∅)) ∨
        (j ≠ iA ∧ j ≠ iB ∧ x ∈ cell_sets.getD j ∅) := by
      intro j x hx
      by_cases hj : j = iA
      · subst hj
        rw [hgetA] at hx
        exact Or.inl ⟨rfl, Finset.mem_union.mp hx⟩
      · by_cases hj2 : j = iB
        · subst hj2
          rw [hgetB] at hx
          simp at hx
        · rw [hgetOther j hj hj2] at hx
          exact Or.inr ⟨hj, hj2, hx⟩
    have hmono : ∀ a b, same_set cell_sets a b →
        same_set ((cell_sets.set iA (cell_sets.getD iA ∅ ∪ cell_sets.getD iB ∅)).set iB ∅)
          a b := by
      rintro a b ⟨j, hj, ha, hb⟩
      by_cases hjA : j = iA
      · rw [hjA] at ha hb
        exact ⟨iA, by rw [hlen']; exact hiAlt,
          by rw [hgetA]; exact Finset.mem_union_left _ ha,
          by rw [hgetA]; exact Finset.mem_union_left _ hb⟩
      · by_cases hjB : j = iB
        · rw [hjB] at ha hb
          exact ⟨iA, by rw [hlen']; exact hiAlt,
            by rw [hgetA]; exact Finset.mem_union_right _ ha,
            by rw [hgetA]; exact Finset.mem_union_right _ hb⟩
        · exact ⟨j, by rw [hlen']; exact hj,
            by rw [hgetOther j hjA hjB]; exact ha,
            by rw [hgetOther j hjA hjB]; exact hb⟩
    have hsameAB : same_set ((cell_sets.set iA (cell_sets.getD iA ∅ ∪ cell_sets.getD iB
        ∅)).set iB ∅) (cell_pair_from_wall c w).1.id (cell_pair_from_wall c w).2.id :=
      ⟨iA, by rw [hlen']; exact hiAlt,
        by rw [hgetA]; exact Finset.mem_union_left _ hiAmem,
        by rw [hgetA]; exact Finset.mem_union_right _ hiBmem⟩
    refine ⟨_, _, hstep, ⟨?_, ?_, ?_, ?_, ?_, ?_, ?_, ?_⟩, hmono, hsameAB⟩
    · rw [List.length_set]; exact inv.hlen
    · intro i x hx
      rcases hmem' i x hx with ⟨-, hx' | hx'⟩ | ⟨-, -, hx'⟩
      · exact inv.mem_lt iA x hx'
      · exact inv.mem_lt iB x hx'
      · exact inv.mem_lt i x hx'
    · intro x hx
      obtain ⟨j, hj, hmem⟩ := inv.exists_mem x hx
      by_cases hjA : j = iA
      · rw [hjA] at hmem
        exact ⟨iA, by rw [hlen']; exact hiAlt,
          by rw [hgetA]; exact Finset.mem_union_left _ hmem⟩
      · by_cases hjB : j = iB
        · rw [hjB] at hmem
          exact ⟨iA, by rw [hlen']; exact hiAlt,
            by rw [hgetA]; exact Finset.mem_union_right _ hmem⟩
        · exact ⟨j, by rw [hlen']; exact hj, by rw [hgetOther j hjA hjB]; exact hmem⟩
    · intro x i j hxi hxj
      rcases hmem' i x hxi with ⟨hiEq, hxi'⟩ | ⟨hiA', hiB', hxi'⟩ <;>
        rcases hmem' j x hxj with ⟨hjEq, hxj'⟩ | ⟨hjA', hjB', hxj'⟩
      · rw [hiEq, hjEq]
      · exfalso
        rcases hxi' with hxi' | hxi'
        · exact hjA' (inv.unique x j iA hxj' hxi')
        · exact hjB' (inv.unique x j iB hxj' hxi')
      · exfalso
        rcases hxj' with hxj' | hxj'
        · exact hiA' (inv.unique x i iA hxi' hxj')
        · exact hiB' (inv.unique x i iB hxi' hxj')
      · exact inv.unique x i j hxi' hxj'
    · intro w2 hcl2
      rcases clearedAt_set_false_iff.mp hcl2 with ⟨rfl, -⟩ | hcl2'
      · exact hsameAB
      · exact hmono _ _ (inv.cleared_same w2 hcl2')
    · rintro a b ⟨j, hj, ha, hb⟩
      have reach_old : ∀ x y, same_set cell_sets x y →
          Relation.ReflTransGen (cleared_adj c (walls.set w false)) x y := fun x y h =>
        Relation.ReflTransGen.mono (fun u v huv => cleared_adj_set_mono huv)
          (inv.same_reach x y h)
      by_cases hjA : j = iA
      · rw [hjA] at ha hb
        rw [hgetA] at ha hb
        have hedge : cleared_adj c (walls.set w false) (cell_pair_from_wall c w).1.id
            (cell_pair_from_wall c w).2.id :=
          ⟨w, clearedAt_set_false_self hwlen, Or.inl ⟨rfl, rfl⟩⟩
        have hedge' : cleared_adj c (walls.set w false) (cell_pair_from_wall c w).2.id
            (cell_pair_from_wall c w).1.id :=
          ⟨w, clearedAt_set_false_self hwlen, Or.inr ⟨rfl, rfl⟩⟩
        rcases Finset.mem_union.mp ha with ha' | ha' <;>
          rcases Finset.mem_union.mp hb with hb' | hb'
        · exact reach_old a b ⟨iA, hiAlt, ha', hb'⟩
        · exact ((reach_old a _ ⟨iA, hiAlt, ha', hiAmem⟩).tail hedge).trans
            (reach_old _ b ⟨iB, hiBlt, hiBmem, hb'⟩)
        · exact ((reach_old a _ ⟨iB, hiBlt, ha', hiBmem⟩).tail hedge').trans
            (reach_old _ b ⟨iA, hiAlt, hiAmem, hb'⟩)
        · exact reach_old a b ⟨iB, hiBlt, ha', hb'⟩
      · by_cases hjB : j = iB
        · rw [hjB] at ha
          rw [hgetB] at ha
          simp at ha
        · rw [hgetOther j hjA hjB] at ha hb
          exact reach_old a b ⟨j, by rw [← hlen']; exact hj, ha, hb⟩
    · intro w2 hcl2 hreach
      by_cases hw2 : w2 = w
      · rw [hw2] at hreach
        have hr1 : Relation.ReflTransGen (cleared_adj c walls)
            (cell_pair_from_wall c w).1.id (cell_pair_from_wall c w).2.id :=
          Relation.ReflTransGen.mono
            (fun u v huv => cleared_adj_except_le (cleared_adj_except_set_self.mp huv)) hreach
        rcases reach_cleared_sameOrEq inv hr1 with heq | hsame
        · exact Nat.ne_of_lt hAB heq
        · exact hnotsame hsame
      · have hcl2' : clearedAt walls w2 := by
          rcases clearedAt_set_false_iff.mp hcl2 with ⟨heq, -⟩ | h
          · exact absurd heq hw2
          · exact h
        have hmoved : Relation.ReflTransGen
            (fun u v => cleared_adj_except c walls w2 u v ∨
              ((u = (cell_pair_from_wall c w).1.id ∧ v = (cell_pair_from_wall c w).2.id) ∨
               (u = (cell_pair_from_wall c w).2.id ∧ v = (cell_pair_from_wall c w).1.id)))
            (cell_pair_from_wall c w2).1.id (cell_pair_from_wall c w2).2.id := by
          refine Relation.ReflTransGen.mono ?_ hreach
          intro u v h
          rcases (cleared_adj_except_set_other hw2 hwlen).mp h with h' | ⟨h1, h2⟩ | ⟨h1, h2⟩
          · exact Or.inl h'
          · exact Or.inr (Or.inl ⟨h1.symm, h2.symm⟩)
          · exact Or.inr (Or.inr ⟨h2.symm, h1.symm⟩)
        have toSame : ∀ x y, Relation.ReflTransGen (cleared_adj_except c walls w2) x y →
            x = y ∨ same_set cell_sets x y := fun x y h =>
          reach_cleared_sameOrEq inv
            (Relation.ReflTransGen.mono (fun u v huv => cleared_adj_except_le huv) h)
        have s0 : (cell_pair_from_wall c w2).1.id = (cell_pair_from_wall c w2).2.id ∨
            same_set cell_sets (cell_pair_from_wall c w2).1.id
              (cell_pair_from_wall c w2).2.id :=
          Or.inr (inv.cleared_same w2 hcl2')
        rcases reach_add_edge hmoved with h1 | ⟨h1, h2⟩ | ⟨h1, h2⟩
        · exact inv.bridge w2 hcl2' h1
        · have chain := sameOrEq_trans inv.unique
            (sameOrEq_trans inv.unique (sameOrEq_symm (toSame _ _ h1)) s0)
            (sameOrEq_symm (toSame _ _ h2))
          rcases chain with heq | hsame
          · exact Nat.ne_of_lt hAB heq
          · exact hnotsame hsame
        · have chain := sameOrEq_trans inv.unique
            (sameOrEq_trans inv.unique (toSame _ _ h2) (sameOrEq_symm s0))
            (toSame _ _ h1)
          rcases chain with heq | hsame
          · exact Nat.ne_of_lt hAB heq
          · exact hnotsame hsame
    · have hcnt1 : (walls.set w false).count false = walls.count false + 1 :=
        count_false_set walls w hwlen wtrue
      have hstay : (cell_sets.set iA (cell_sets.getD iA ∅ ∪ cell_sets.getD iB
          ∅)).countP (fun s => decide s.Nonempty) =
          cell_sets.countP (fun s => decide s.Nonempty) := by
        refine countP_set_stay ∅ cell_sets iA _ hiAlt ?_ ?_
        · simp only [decide_eq_true_eq]
          exact ⟨_, hiAmem⟩
        · simp only [decide_eq_true_eq]
          exact ⟨_, Finset.mem_union_left _ hiAmem⟩
      have hdrop : ((cell_sets.set iA (cell_sets.getD iA ∅ ∪ cell_sets.getD iB
          ∅)).set iB ∅).countP (fun s => decide s.Nonempty) + 1 =
          (cell_sets.set iA (cell_sets.getD iA ∅ ∪ cell_sets.getD iB ∅)).countP
            (fun s => decide s.Nonempty) := by
        refine countP_set_drop ∅ _ iB ∅ (by rw [List.length_set]; exact hiBlt) ?_ ?_
        · rw [getD_set_ne hne]
          simp only [decide_eq_true_eq]
          exact ⟨_, hiBmem⟩
        · simp
      have hcount := inv.count
      omega

/-- The whole tumbling loop succeeds on valid wall ids and accumulates the
step guarantees. -/
lemma tumble_loop_inv {c r : Nat} (hc : 1 ≤ c) (hr : 1 ≤ r) :
    ∀ (order : List Nat) (walls : List Bool) (cell_sets : List (Finset Nat)),
      TumbleInv c r walls cell_sets → (∀ w ∈ order, w < total_walls c r) →
      ∃ walls' cell_sets',
        tumble_loop c (walls, cell_sets) order = some (walls', cell_sets') ∧
        TumbleInv c r walls' cell_sets' ∧
        (∀ a b, same_set cell_sets a b → same_set cell_sets' a b) ∧
        (∀ w ∈ order, same_set cell_sets'
          (cell_pair_from_wall c w).1.id (cell_pair_from_wall c w).2.id) := by
  intro order
  induction order with
  | nil =>
    intro walls cell_sets inv _
    exact ⟨walls, cell_sets, rfl, inv, fun a b h => h, by simp⟩
  | cons w ws ih =>
    intro walls cell_sets inv horder
    obtain ⟨walls1, sets1, hstep, inv1, hmono1, hsame1⟩ :=
      tumble_step_inv hc hr inv (horder w (by simp))
    obtain ⟨walls2, sets2, hloop, inv2, hmono2, hsame2⟩ :=
      ih walls1 sets1 inv1 (fun w' hw' => horder w' (by simp [hw']))
    refine ⟨walls2, sets2, ?_, inv2, fun a b h => hmono2 a b (hmono1 a b h), ?_⟩
    · simp only [tumble_loop, hstep]
      exact hloop
    · intro w' hw'
      rcases List.mem_cons.mp hw' with rfl | hw''
      · exact hmono2 _ _ hsame1
      · exact hsame2 w' hw''

lemma getD_eq_default_of_le {α : Type} {l : List α} {i : Nat} (d : α) (h : l.length ≤ i) :
    l.getD i d = d := by
  rw [List.getD_eq_getElem?_getD, List.getElem?_eq_none h]
  rfl

lemma init_sets_length (n : Nat) : (init_sets n).length = n := by
  simp [init_sets]

lemma init_sets_getD {n i : Nat} (h : i < n) : (init_sets n).getD i ∅ = {i} := by
  unfold init_sets
  rw [List.getD_eq_getElem?_getD, List.getElem?_map, List.getElem?_range h]
  rfl

/-- The invariant holds for the fresh wall array and singleton cell sets. -/
lemma init_inv {c r : Nat} (hc : 1 ≤ c) (hr : 1 ≤ r) :
    TumbleInv c r (List.replicate (total_walls c r) true) (init_sets (r * c)) := by
  have hnocl : ∀ w, ¬ clearedAt (List.replicate (total_walls c r) true) w := by
    intro w hcl
    unfold clearedAt at hcl
    rw [List.getD_eq_getElem?_getD, List.getElem?_replicate] at hcl
    by_cases hw : w < total_walls c r
    · rw [if_pos hw] at hcl
      simp at hcl
    · rw [if_neg hw] at hcl
      simp at hcl
  refine ⟨by simp, ?_, ?_, ?_, ?_, ?_, ?_, ?_⟩
  · intro i x hx
    by_cases hi : i < r * c
    · rw [init_sets_getD hi] at hx
      rw [Finset.mem_singleton.mp hx]
      exact hi
    · rw [getD_eq_default_of_le ∅ (by rw [init_sets_length]; omega)] at hx
      simp at hx
  · intro x hx
    exact ⟨x, by rw [init_sets_length]; exact hx, by rw [init_sets_getD hx]; simp⟩
  · intro x i j hxi hxj
    by_cases hi : i < r * c
    · by_cases hj : j < r * c
      · rw [init_sets_getD hi] at hxi
        rw [init_sets_getD hj] at hxj
        rw [← Finset.mem_singleton.mp hxi, ← Finset.mem_singleton.mp hxj]
      · rw [getD_eq_default_of_le ∅ (by rw [init_sets_length]; omega)] at hxj
        simp at hxj
    · rw [getD_eq_default_of_le ∅ (by rw [init_sets_length]; omega)] at hxi
      simp at hxi
  · intro w hcl
    exact absurd hcl (hnocl w)
  · rintro a b ⟨i, hi, ha, hb⟩
    rw [init_sets_length] at hi
    rw [init_sets_getD hi] at ha hb
    have ha' : a = i := Finset.mem_singleton.mp ha
    have hb' : b = i := Finset.mem_singleton.mp hb
    rw [ha', hb']
  · intro w hcl
    exact absurd hcl (hnocl w)
  · have h1 : (List.replicate (total_walls c r) true).count false = 0 := by
      simp [List.count_replicate]
    have h2 : (init_sets (r * c)).countP (fun s => decide s.Nonempty)
        = (init_sets (r * c)).length := by
      rw [List.countP_eq_length]
      intro s hs
      unfold init_sets at hs
      obtain ⟨i, -, rfl⟩ := List.mem_map.mp hs
      simp
    rw [h1, h2, init_sets_length]
    omega

/-- When every wall of the grid has been processed, all cells lie in one
common set: neighbouring cells were joined wall by wall, and the grid graph
is connected. -/
lemma final_all_same {c r : Nat} (hc : 1 ≤ c) (hr : 1 ≤ r)
    {walls : List Bool} {cell_sets : List (Finset Nat)}
    (inv : TumbleInv c r walls cell_sets)
    (hall : ∀ w, w < total_walls c r → same_set cell_sets
      (cell_pair_from_wall c w).1.id (cell_pair_from_wall c w).2.id) :
    ∀ a b, a < r * c → b < r * c → same_set cell_sets a b := by
  have hrefl : ∀ x, x < r * c → same_set cell_sets x x := fun x hx => by
    obtain ⟨i, hi, hm⟩ := inv.exists_mem x hx
    exact ⟨i, hi, hm, hm⟩
  have hstepv : ∀ row col, row < r → col + 1 < c →
      same_set cell_sets (row * c + col) (row * c + (col + 1)) := by
    intro row col hrow hcol
    have hk : col < c - 1 := by omega
    have hw := vertical_wall_lt hc hr hrow hk
    have hp := @cell_pair_from_wall_vertical c hc row col hk
    have hs := hall _ hw
    rw [hp] at hs
    simpa [Cell.id] using hs
  have hsteph : ∀ row col, row + 1 < r → col < c →
      same_set cell_sets (row * c + col) ((row + 1) * c + col) := by
    intro row col hrow hcol
    have hw := horizontal_wall_lt hc hr hrow hcol
    have hp := @cell_pair_from_wall_horizontal c hc row col hcol
    have hs := hall _ hw
    rw [hp] at hs
    simpa [Cell.id] using hs
  have hrowlt : ∀ row, row < r → row * c < r * c := by
    intro row hrow
    have h1 : (row + 1) * c ≤ r * c := Nat.mul_le_mul_right _ (by omega)
    have h2 : (row + 1) * c = row * c + c := by ring
    have h3 : 1 ≤ c := hc
    linarith
  have hcol0 : ∀ row, row < r → ∀ col, col < c →
      same_set cell_sets (row * c) (row * c + col) := by
    intro row hrow col
    induction col with
    | zero => intro _; simpa using hrefl (row * c) (hrowlt row hrow)
    | succ n ihn =>
      intro hcol
      exact same_set_trans inv.unique (ihn (by omega)) (hstepv row n hrow hcol)
  have hrow0 : ∀ row, row < r → same_set cell_sets 0 (row * c) := by
    intro row
    induction row with
    | zero =>
      intro _
      simpa using hrefl 0 (by have := hrowlt 0 (by omega); simpa using Nat.mul_pos hr hc)
    | succ n ihn =>
      intro hrow
      refine same_set_trans inv.unique (ihn (by omega)) ?_
      have hs := hsteph n 0 hrow (by omega)
      simpa using hs
  have hconn : ∀ x, x < r * c → same_set cell_sets 0 x := by
    intro x hx
    have hxr : x / c < r := (Nat.div_lt_iff_lt_mul (by omega)).mpr (by omega)
    have hxc : x % c < c := Nat.mod_lt _ (by omega)
    have hdecomp : x / c * c + x % c = x := by
      rw [Nat.mul_comm]; exact Nat.div_add_mod x c
    have h1 := hrow0 (x / c) hxr
    have h2 := hcol0 (x / c) hxr (x % c) hxc
    rw [hdecomp] at h2
    exact same_set_trans inv.unique h1 h2
  intro a b ha hb
  exact same_set_trans inv.unique (same_set_symm (hconn a ha)) (hconn b hb)

/-- Extracting the selected element is a permutation step. -/
lemma getD_cons_eraseIdx_perm {l : List Nat} {k : Nat} (h : k < l.length) :
    (l.getD k 0 :: l.eraseIdx k).Perm l := by
  have hd : l.getD k 0 = l[k] := by
    rw [List.getD_eq_getElem?_getD, List.getElem?_eq_getElem h]; rfl
  have hsplit : l.take k ++ l[k] :: l.drop (k + 1) = l := by
    conv_rhs => rw [← List.take_append_drop k l]
    rw [List.drop_eq_getElem_cons h]
  have hm : (l.take k ++ l[k] :: l.drop (k + 1)).Perm
      (l[k] :: (l.take k ++ l.drop (k + 1))) := List.perm_middle
  rw [hsplit] at hm
  rw [hd, List.eraseIdx_eq_take_drop_succ]
  exact hm.symm

/-- The modelled shuffle permutes its input. -/
lemma model_shuffle_perm : ∀ (n s : Nat) (l : List Nat), l.length = n →
    (model_shuffle s l).Perm l := by
  intro n
  induction n using Nat.strong_induction_on with
  | _ n ih =>
    intro s l hlen
    match l with
    | [] => simp [model_shuffle]
    | x :: xs =>
      rw [model_shuffle]
      have hk : s % (x :: xs).length < (x :: xs).length := Nat.mod_lt _ (by simp)
      have hlt : ((x :: xs).eraseIdx (s % (x :: xs).length)).length < n := by
        rw [List.length_eraseIdx, if_pos hk]
        simp at hlen ⊢
        omega
      have hperm1 := ih _ hlt (next_random s) ((x :: xs).eraseIdx (s % (x :: xs).length)) rfl
      exact (List.Perm.cons _ hperm1).trans (getD_cons_eraseIdx_perm hk)

lemma wall_order_perm (seed t : Nat) : (wall_order seed t).Perm (List.range t) := by
  unfold wall_order
  by_cases hs : seed ≠ 0
  · rw [if_pos hs]
    exact model_shuffle_perm _ _ _ rfl
  · rw [if_neg hs]

lemma wall_order_mem_iff (seed t w : Nat) : w ∈ wall_order seed t ↔ w < t := by
  rw [(wall_order_perm seed t).mem_iff, List.mem_range]

/-- Running `tumble_walls` over an order that lists every wall id exactly
produces a final state satisfying the invariant with all walls processed. -/
lemma tumble_walls_spec {c r : Nat} (hc : 1 ≤ c) (hr : 1 ≤ r)
    {order : List Nat} (hmem : ∀ w, w < total_walls c r → w ∈ order)
    (hlt : ∀ w ∈ order, w < total_walls c r) :
    ∃ walls' cell_sets',
      tumble_walls c r (List.replicate (total_walls c r) true) order
        = some (walls', cell_sets') ∧
      TumbleInv c r walls' cell_sets' ∧
      (∀ a b, a < r * c → b < r * c → same_set cell_sets' a b) := by
  obtain ⟨walls', cell_sets', hloop, inv', -, hall⟩ :=
    tumble_loop_inv hc hr order (List.replicate (total_walls c r) true)
      (init_sets (r * c)) (init_inv hc hr) hlt
  refine ⟨walls', cell_sets', hloop, inv', ?_⟩
  exact final_all_same hc hr inv' (fun w hw => hall w (hmem w hw))

/-- Master lemma for `PerfectMaze::new`: for positive dimensions and any seed
the construction succeeds, and the resulting maze satisfies the spanning-tree
count, full connectivity through cleared walls, and the bridge property of
every cleared wall. -/
lemma new_spec (c r seed : Nat) (hc : 1 ≤ c) (hr : 1 ≤ r) :
    ∃ m, PerfectMaze.new c r seed = some m ∧ m.columns = c ∧ m.rows = r ∧
      m.seed = seed ∧ m.walls.length = total_walls c r ∧
      m.walls.count false = r * c - 1 ∧
      (∀ a b, a < r * c → b < r * c →
        Relation.ReflTransGen (cleared_adj c m.walls) a b) ∧
      (∀ w, clearedAt m.walls w →
        ¬ Relation.ReflTransGen (cleared_adj_except c m.walls w)
          (cell_pair_from_wall c w).1.id (cell_pair_from_wall c w).2.id) := by
  obtain ⟨walls', cell_sets', hloop, inv', hall⟩ :=
    tumble_walls_spec hc hr
      (fun w hw => (wall_order_mem_iff seed (total_walls c r) w).mpr hw)
      (fun w hw => (wall_order_mem_iff seed (total_walls c r) w).mp hw)
  refine ⟨⟨c, r, seed, walls'⟩, ?_, rfl, rfl, rfl, inv'.hlen, ?_, ?_, inv'.bridge⟩
  · unfold PerfectMaze.new
    rw [if_neg (by omega)]
    simp only [tumble_walls] at hloop
    simp only [tumble_walls, hloop]
  · have hone : cell_sets'.countP (fun s => decide s.Nonempty) = 1 := by
      obtain ⟨i0, hi0, hm0⟩ := inv'.exists_mem 0 (by positivity)
      refine countP_eq_one_of_unique ∅ cell_sets' i0 hi0 ?_ ?_
      · simp only [decide_eq_true_eq]
        exact ⟨0, hm0⟩
      · intro j hj hpj
        simp only [decide_eq_true_eq] at hpj
        obtain ⟨x, hx⟩ := hpj
        have hxlt := inv'.mem_lt j x hx
        obtain ⟨k, hk, hxk, h0k⟩ := hall x 0 hxlt (by positivity)
        have e1 := inv'.unique x j k hx hxk
        have e2 := inv'.unique 0 i0 k hm0 h0k
        omega
    have hcnt := inv'.count
    rw [hone] at hcnt
    show walls'.count false = r * c - 1
    omega
  · intro a b ha hb
    exact inv'.same_reach a b (hall a b ha hb)

/-- Chains of cleared-wall steps lift to reachability in the maze graph. -/
lemma reach_to_reachable {m : PerfectMaze} (hc : 1 ≤ m.columns) (hr : 1 ≤ m.rows)
    (hlen : m.walls.length = total_walls m.columns m.rows) :
    ∀ x y, Relation.ReflTransGen (cleared_adj m.columns m.walls) x y →
      ∀ (hx : x < m.rows * m.columns) (hy : y < m.rows * m.columns),
        (mazeGraph m).Reachable ⟨x, hx⟩ ⟨y, hy⟩ := by
  intro x y h
  induction h with
  | refl =>
    intro hx hy
    exact SimpleGraph.Reachable.refl _
  | tail hreach hstep ih =>
    rename_i z y'
    intro hx hy
    obtain ⟨w, hcl, hp⟩ := hstep
    have hwlt : w < total_walls m.columns m.rows := by
      rw [← hlen]; exact clearedAt_lt_length hcl
    obtain ⟨hA, hB, -⟩ := cell_pair_id_lt hc hr hwlt
    have hz : z < m.rows * m.columns := by
      rcases hp with ⟨h1, h2⟩ | ⟨h1, h2⟩
      · rw [← h1]; exact hA
      · rw [← h2]; exact hB
    by_cases hzy : z = y'
    · subst hzy
      exact ih hx hz
    · refine (ih hx hz).trans (SimpleGraph.Adj.reachable ?_)
      exact ⟨Fin.ne_of_val_ne hzy, w, hcl, hp⟩

/-- The maze graph of a fully carved maze is connected. -/
lemma mazeGraph_connected {m : PerfectMaze} (hc : 1 ≤ m.columns) (hr : 1 ≤ m.rows)
    (hlen : m.walls.length = total_walls m.columns m.rows)
    (hall : ∀ a b, a < m.rows * m.columns → b < m.rows * m.columns →
      Relation.ReflTransGen (cleared_adj m.columns m.walls) a b) :
    (mazeGraph m).Connected := by
  rw [SimpleGraph.connected_iff]
  constructor
  · intro u v
    have h := reach_to_reachable hc hr hlen u.val v.val
      (hall u.val v.val u.isLt v.isLt) u.isLt v.isLt
    simpa using h
  · exact ⟨⟨0, Nat.mul_pos hr hc⟩⟩

/-- Every edge of the maze graph is a bridge, so the graph is acyclic. -/
lemma mazeGraph_acyclic {m : PerfectMaze} (hc : 1 ≤ m.columns) (hr : 1 ≤ m.rows)
    (hlen : m.walls.length = total_walls m.columns m.rows)
    (hbridge : ∀ w, clearedAt m.walls w →
      ¬ Relation.ReflTransGen (cleared_adj_except m.columns m.walls w)
        (cell_pair_from_wall m.columns w).1.id (cell_pair_from_wall m.columns w).2.id) :
    (mazeGraph m).IsAcyclic := by
  rw [SimpleGraph.isAcyclic_iff_forall_adj_isBridge]
  intro u v hadj
  rw [SimpleGraph.isBridge_iff]
  refine ⟨hadj, ?_⟩
  intro hre
  obtain ⟨hne, w, hcl, hp⟩ := hadj
  rw [SimpleGraph.reachable_iff_reflTransGen] at hre
  have hmono : ∀ (x y : Fin (m.rows * m.columns)),
      ((mazeGraph m) \ SimpleGraph.fromEdgeSet {s(u, v)}).Adj x y →
      cleared_adj_except m.columns m.walls w x.val y.val := by
    intro x y hxy
    rw [SimpleGraph.sdiff_adj] at hxy
    obtain ⟨⟨hnexy, w2, hcl2, hp2⟩, hnotE⟩ := hxy
    refine ⟨w2, ?_, hcl2, hp2⟩
    rintro rfl
    apply hnotE
    rw [SimpleGraph.fromEdgeSet_adj]
    refine ⟨?_, hnexy⟩
    simp only [Set.mem_singleton_iff]
    rcases hp with ⟨hpu, hpv⟩ | ⟨hpu, hpv⟩ <;> rcases hp2 with ⟨hxu, hyv⟩ | ⟨hxu, hyv⟩
    · have h1 : x = u := Fin.ext (hxu.symm.trans hpu)
      have h2 : y = v := Fin.ext (hyv.symm.trans hpv)
      rw [h1, h2]
    · have h1 : y = u := Fin.ext (hxu.symm.trans hpu)
      have h2 : x = v := Fin.ext (hyv.symm.trans hpv)
      rw [h1, h2, Sym2.eq_swap]
    · have h1 : x = v := Fin.ext (hxu.symm.trans hpu)
      have h2 : y = u := Fin.ext (hyv.symm.trans hpv)
      rw [h1, h2, Sym2.eq_swap]
    · have h1 : y = v := Fin.ext (hxu.symm.trans hpu)
      have h2 : x = u := Fin.ext (hyv.symm.trans hpv)
      rw [h1, h2]
  have hlift : Relation.ReflTransGen (cleared_adj_except m.columns m.walls w) u.val v.val :=
    Relation.ReflTransGen.lift Fin.val hmono hre
  rcases hp with ⟨hpu, hpv⟩ | ⟨hpu, hpv⟩
  · exact hbridge w hcl (by rw [hpu, hpv]; exact hlift)
  · have hsym := reflTransGen_symm (fun a b h => cleared_adj_except_symm h) hlift
    exact hbridge w hcl (by rw [hpu, hpv]; exact hsym)

lemma is_valid_cell_some {m : PerfectMaze} {row col : Nat}
    (hrow : row < m.rows) (hcol : col < m.columns) :
    m.is_valid_cell row col = some () := by
  unfold PerfectMaze.is_valid_cell
  rw [if_neg (by omega)]

lemma is_valid_cell_none {m : PerfectMaze} {row col : Nat}
    (h : m.rows ≤ row ∨ m.columns ≤ col) :
    m.is_valid_cell row col = none := by
  unfold PerfectMaze.is_valid_cell
  rw [if_pos (by omega)]

/-- For a well-formed maze, the right-wall query of every in-grid cell
answers `some`, and the backing array index is in bounds. -/
lemma get_right_wall_isSome {m : PerfectMaze}
    (hlen : m.walls.length = total_walls m.columns m.rows) {row col : Nat}
    (hrow : row < m.rows) (hcol : col < m.columns) :
    (m.get_right_wall row col).isSome = true := by
  unfold PerfectMaze.get_right_wall
  rw [is_valid_cell_some hrow hcol]
  by_cases hlast : col = m.columns - 1
  · rw [if_pos hlast]
    rfl
  · rw [if_neg hlast]
    have hidx : row * walls_per_row m.columns + col < m.walls.length := by
      rw [hlen]
      exact vertical_wall_lt (by omega) (by omega) hrow (by omega)
    rw [List.getElem?_eq_getElem hidx]
    rfl

/-- Same for the bottom-wall query. -/
lemma get_bottom_wall_isSome {m : PerfectMaze}
    (hlen : m.walls.length = total_walls m.columns m.rows) {row col : Nat}
    (hrow : row < m.rows) (hcol : col < m.columns) :
    (m.get_bottom_wall row col).isSome = true := by
  unfold PerfectMaze.get_bottom_wall
  rw [is_valid_cell_some hrow hcol]
  by_cases hlast : row = m.rows - 1
  · rw [if_pos hlast]
    rfl
  · rw [if_neg hlast]
    have hidx : row * walls_per_row m.columns + (m.columns - 1) + col < m.walls.length := by
      rw [hlen]
      exact horizontal_wall_lt (by omega) (by omega) (by omega) hcol
    rw [List.getElem?_eq_getElem hidx]
    rfl

lemma get_right_wall_none_of_invalid {m : PerfectMaze} {row col : Nat}
    (h : m.rows ≤ row ∨ m.columns ≤ col) :
    m.get_right_wall row col = none := by
  unfold PerfectMaze.get_right_wall
  rw [is_valid_cell_none h]

lemma get_bottom_wall_none_of_invalid {m : PerfectMaze} {row col : Nat}
    (h : m.rows ≤ row ∨ m.columns ≤ col) :
    m.get_bottom_wall row col = none := by
  unfold PerfectMaze.get_bottom_wall
  rw [is_valid_cell_none h]

lemma get_right_wall_boundary {m : PerfectMaze} {row : Nat}
    (hrow : row < m.rows) (hc : 1 ≤ m.columns) :
    m.get_right_wall row (m.columns - 1) = some true := by
  unfold PerfectMaze.get_right_wall
  rw [is_valid_cell_some hrow (by omega)]
  rw [if_pos rfl]

lemma get_bottom_wall_boundary {m : PerfectMaze} {col : Nat}
    (hcol : col < m.columns) (hr : 1 ≤ m.rows) :
    m.get_bottom_wall (m.rows - 1) col = some true := by
  unfold PerfectMaze.get_bottom_wall
  rw [is_valid_cell_some (by omega) hcol]
  rw [if_pos rfl]

/-- The rendered text, re-expressed through the two wall queries: a top
border of `vertical_walls + horizontal_walls + 2` wall characters, then one
`|`-prefixed line per row with a bottom-wall and a right-wall character per
column. -/
lemma render_eq {m : PerfectMaze}
    (hlen : m.walls.length = total_walls m.columns m.rows) :
    render m =
      String.mk (List.replicate ((m.columns - 1) + m.columns + 2) '_') ++ "\n" ++
      String.join ((List.range m.rows).map (fun row =>
        "|" ++ String.join ((List.range m.columns).map (fun column =>
          (if m.get_bottom_wall row column = some true then "_" else " ") ++
          (if m.get_right_wall row column = some true then "|" else " "))) ++ "\n")) := by
  have hmaps : (List.range m.rows).map (fun row =>
        "|" ++ String.join ((List.range m.columns).map (fun column =>
          (if (m.get_bottom_wall row column).getD true then "_" else " ") ++
          (if (m.get_right_wall row column).getD true then "|" else " "))) ++ "\n")
      = (List.range m.rows).map (fun row =>
        "|" ++ String.join ((List.range m.columns).map (fun column =>
          (if m.get_bottom_wall row column = some true then "_" else " ") ++
          (if m.get_right_wall row column = some true then "|" else " "))) ++ "\n") := by
    apply List.map_congr_left
    intro row hrowmem
    have hrow : row < m.rows := List.mem_range.mp hrowmem
    have hinner : (List.range m.columns).map (fun column =>
          (if (m.get_bottom_wall row column).getD true then "_" else " ") ++
          (if (m.get_right_wall row column).getD true then "|" else " "))
        = (List.range m.columns).map (fun column =>
          (if m.get_bottom_wall row column = some true then "_" else " ") ++
          (if m.get_right_wall row column = some true then "|" else " ")) := by
      apply List.map_congr_left
      intro col hcolmem
      have hcol : col < m.columns := List.mem_range.mp hcolmem
      obtain ⟨b1, hb1⟩ :=
        Option.isSome_iff_exists.mp (get_bottom_wall_isSome hlen hrow hcol)
      obtain ⟨b2, hb2⟩ :=
        Option.isSome_iff_exists.mp (get_right_wall_isSome hlen hrow hcol)
      rw [hb1, hb2]
      cases b1 <;> cases b2 <;> simp
    rw [hinner]
  unfold render
  rw [hmaps]

/-- The mapping `cell_pair_from_wall` maps the valid wall-id range bijectively onto the
ordered adjacent cell pairs of the grid. -/
lemma cell_pair_from_wall_bijOn (c r : Nat) (hc : 1 ≤ c) (hr : 1 ≤ r) :
    Set.BijOn (cell_pair_from_wall c) (Set.Iio (total_walls c r))
      {p : Cell × Cell | grid_adj_pair c r p} := by
  refine ⟨?_, ?_, ?_⟩
  · intro w hw
    simp only [Set.mem_setOf_eq]
    rcases cell_pair_valid hc hr (Set.mem_Iio.mp hw) with
      ⟨q, k, hq, hk, -, hpair⟩ | ⟨q, col, hq, hcol, -, hpair⟩
    · rw [hpair]
      dsimp only [grid_adj_pair]
      exact ⟨rfl, rfl, hq, by omega, hq, by omega, Or.inl ⟨rfl, rfl⟩⟩
    · rw [hpair]
      dsimp only [grid_adj_pair]
      exact ⟨rfl, rfl, by omega, hcol, by omega, hcol, Or.inr ⟨rfl, rfl⟩⟩
  · intro w hw w' hw' heq
    rcases cell_pair_valid hc hr (Set.mem_Iio.mp hw) with
      ⟨q, k, hq, hk, hwv, hpair⟩ | ⟨q, col, hq, hcol, hwv, hpair⟩ <;>
      rcases cell_pair_valid hc hr (Set.mem_Iio.mp hw') with
        ⟨q', k', hq', hk', hwv', hpair'⟩ | ⟨q', col', hq', hcol', hwv', hpair'⟩ <;>
      rw [hpair, hpair'] at heq <;>
      simp only [Prod.mk.injEq, Cell.mk.injEq] at heq
    · obtain ⟨⟨e1, e2, -⟩, -⟩ := heq
      rw [hwv, hwv', e1, e2]
    · obtain ⟨⟨e1, -, -⟩, ⟨e3, -, -⟩⟩ := heq
      omega
    · obtain ⟨⟨e1, -, -⟩, ⟨e3, -, -⟩⟩ := heq
      omega
    · obtain ⟨⟨e1, e2, -⟩, -⟩ := heq
      rw [hwv, hwv', e1, e2]
  · intro p hp
    simp only [Set.mem_setOf_eq, grid_adj_pair] at hp
    obtain ⟨⟨r1, c1, t1⟩, ⟨r2, c2, t2⟩⟩ := p
    obtain ⟨ht1, ht2, hr1, hc1, hr2, hc2, horient⟩ := hp
    simp only at ht1 ht2 hr1 hc1 hr2 hc2 horient
    rcases horient with ⟨hrow2, hcol2⟩ | ⟨hrow2, hcol2⟩
    · refine ⟨r1 * walls_per_row c + c1, Set.mem_Iio.mpr ?_, ?_⟩
      · exact vertical_wall_lt hc hr hr1 (by omega)
      · rw [@cell_pair_from_wall_vertical c hc r1 c1 (by omega)]
        rw [ht1, ht2, hrow2, hcol2]
    · refine ⟨r1 * walls_per_row c + (c - 1) + c1, Set.mem_Iio.mpr ?_, ?_⟩
      · refine horizontal_wall_lt hc hr ?_ hc1
        omega
      · rw [@cell_pair_from_wall_horizontal c hc r1 c1 hc1]
        rw [ht1, ht2, hrow2, hcol2]

/-! ### The claims -/

/-- C1: for every `columns ≥ 1`, `rows ≥ 1` and every seed, `PerfectMaze::new`
produces a perfect maze: the graph whose vertices are the `rows * columns`
cells and whose edges are the cleared walls is connected and acyclic. -/
theorem C1_perfect_maze (columns rows seed : Nat)
    (hc : 1 ≤ columns) (hr : 1 ≤ rows) :
    ∃ m, PerfectMaze.new columns rows seed = some m ∧
      (mazeGraph m).Connected ∧ (mazeGraph m).IsAcyclic := by
  obtain ⟨m, hnew, hcols, hrows, -, hlen, -, hreach, hbridge⟩ :=
    new_spec columns rows seed hc hr
  refine ⟨m, hnew, ?_, ?_⟩
  · apply mazeGraph_connected (by rw [hcols]; exact hc) (by rw [hrows]; exact hr)
      (by rw [hcols, hrows]; exact hlen)
    rw [hcols, hrows]
    exact hreach
  · apply mazeGraph_acyclic (by rw [hcols]; exact hc) (by rw [hrows]; exact hr)
      (by rw [hcols, hrows]; exact hlen)
    rw [hcols]
    exact hbridge

/-- Witness for C1 at `columns = 2`, `rows = 3`, `seed = 0`. -/
theorem C1_perfect_maze_witness :
    (1 ≤ 2 ∧ 1 ≤ 3) ∧
    ∃ m, PerfectMaze.new 2 3 0 = some m ∧
      (mazeGraph m).Connected ∧ (mazeGraph m).IsAcyclic :=
  ⟨⟨by decide, by decide⟩, C1_perfect_maze 2 3 0 (by decide) (by decide)⟩

/-- C2: for every `columns ≥ 1`, `rows ≥ 1` and every seed, the finished wall
array contains exactly `rows * columns - 1` cleared (`false`) entries. -/
theorem C2_cleared_wall_count (columns rows seed : Nat)
    (hc : 1 ≤ columns) (hr : 1 ≤ rows) :
    ∃ m, PerfectMaze.new columns rows seed = some m ∧
      m.walls.count false = rows * columns - 1 := by
  obtain ⟨m, hnew, -, -, -, -, hcount, -, -⟩ := new_spec columns rows seed hc hr
  exact ⟨m, hnew, hcount⟩

/-- Witness for C2 at `columns = 2`, `rows = 3`, `seed = 0`. -/
theorem C2_cleared_wall_count_witness :
    (1 ≤ 2 ∧ 1 ≤ 3) ∧
    ∃ m, PerfectMaze.new 2 3 0 = some m ∧ m.walls.count false = 3 * 2 - 1 :=
  ⟨⟨by decide, by decide⟩, C2_cleared_wall_count 2 3 0 (by decide) (by decide)⟩

/-- C3: construction is deterministic: two calls of `PerfectMaze::new` with
the same `(columns, rows, seed)` yield identical wall arrays and identical
rendered text. -/
theorem C3_deterministic (columns rows seed : Nat) {m₁ m₂ : PerfectMaze}
    (h₁ : PerfectMaze.new columns rows seed = some m₁)
    (h₂ : PerfectMaze.new columns rows seed = some m₂) :
    m₁.walls = m₂.walls ∧ render m₁ = render m₂ := by
  have hm : m₁ = m₂ := Option.some.inj (h₁.symm.trans h₂)
  rw [hm]
  exact ⟨rfl, rfl⟩

/-- Witness for C3 at `columns = rows = 1`, `seed = 0`. -/
theorem C3_deterministic_witness :
    (PerfectMaze.new 1 1 0 = some ⟨1, 1, 0, []⟩) ∧
    ((⟨1, 1, 0, []⟩ : PerfectMaze).walls = (⟨1, 1, 0, []⟩ : PerfectMaze).walls ∧
      render ⟨1, 1, 0, []⟩ = render ⟨1, 1, 0, []⟩) :=
  ⟨by decide, C3_deterministic 1 1 0 (by decide) (by decide)⟩

/-- Counterexample to C4: `new(2, 3, Some(0))` does not render the claimed
all-walls diagram (seed 0 skips the shuffle but the walls are still
tumbled, exactly as the repository's own `display_maze` test records). -/
theorem C4_counterexample :
    ¬ ((PerfectMaze.new 2 3 0).map render
      = some "_____\n|_|_|\n|_|_|\n|_|_|\n") := by decide

/-- C4 as amended: `new(2, 3, Some(0))` renders exactly the four-line text
with an open top-left region, matching the repository's `display_maze`
test. -/
theorem C4_render_seed0 :
    (PerfectMaze.new 2 3 0).map render = some "_____\n|   |\n| | |\n|_|_|\n" := by decide

/-- Counterexample to C5: the claimed top-border length
`2 * columns + vertical_walls + 2` is wrong; for the 1-by-1 maze the rendered
top border has 3 characters while the formula demands 4. -/
theorem C5_counterexample :
    (PerfectMaze.new 1 1 0).map render = some "___\n|_|\n" ∧
    ¬ ((PerfectMaze.new 1 1 0).map render
      = some (String.mk (List.replicate (2 * 1 + (1 - 1) + 2) '_') ++ "\n" ++ "|_|\n")) :=
  ⟨by decide, by decide⟩

/-- C5 as amended: the rendered text begins with a top border of
`vertical_walls + columns + 2` (that is `2 * columns + 1`) wall characters
and a newline, followed by one line per row consisting of a left border `|`
and, for each column, a bottom-wall character (`_` if present else space)
and a right-wall character (`|` if present else space), each row line
newline-terminated. -/
theorem C5_render_format (columns rows seed : Nat) (hc : 1 ≤ columns) (hr : 1 ≤ rows)
    (m : PerfectMaze) (hm : PerfectMaze.new columns rows seed = some m) :
    render m =
      String.mk (List.replicate ((columns - 1) + columns + 2) '_') ++ "\n" ++
      String.join ((List.range rows).map (fun row =>
        "|" ++ String.join ((List.range columns).map (fun column =>
          (if m.get_bottom_wall row column = some true then "_" else " ") ++
          (if m.get_right_wall row column = some true then "|" else " "))) ++ "\n")) := by
  obtain ⟨m', hnew, hcols, hrows, -, hlen, -⟩ := new_spec columns rows seed hc hr
  rw [hm] at hnew
  obtain rfl := Option.some.inj hnew
  rw [← hcols, ← hrows]
  exact render_eq (by rw [hcols, hrows]; exact hlen)

/-- Witness for the amended C5 at `columns = rows = 1`, `seed = 0`. -/
theorem C5_render_format_witness :
    ((1 ≤ 1 ∧ PerfectMaze.new 1 1 0 = some ⟨1, 1, 0, []⟩)) ∧
    render ⟨1, 1, 0, []⟩ =
      String.mk (List.replicate ((1 - 1) + 1 + 2) '_') ++ "\n" ++
      String.join ((List.range 1).map (fun row =>
        "|" ++ String.join ((List.range 1).map (fun column =>
          (if (⟨1, 1, 0, []⟩ : PerfectMaze).get_bottom_wall row column = some true
            then "_" else " ") ++
          (if (⟨1, 1, 0, []⟩ : PerfectMaze).get_right_wall row column = some true
            then "|" else " "))) ++ "\n")) :=
  ⟨⟨by decide, by decide⟩,
    C5_render_format 1 1 0 (by decide) (by decide) ⟨1, 1, 0, []⟩ (by decide)⟩

/-- C6: for every `columns ≥ 1` and `rows ≥ 1`, `cell_pair_from_wall` is a
bijection from the valid wall-id range onto the set of ordered adjacent cell
pairs of the grid. -/
theorem C6_cell_pair_bijection (columns rows : Nat) (hc : 1 ≤ columns) (hr : 1 ≤ rows) :
    Set.BijOn (cell_pair_from_wall columns) (Set.Iio (total_walls columns rows))
      {p : Cell × Cell | grid_adj_pair columns rows p} :=
  cell_pair_from_wall_bijOn columns rows hc hr

/-- Witness for C6 at `columns = 2`, `rows = 3`. -/
theorem C6_cell_pair_bijection_witness :
    (1 ≤ 2 ∧ 1 ≤ 3) ∧
    Set.BijOn (cell_pair_from_wall 2) (Set.Iio (total_walls 2 3))
      {p : Cell × Cell | grid_adj_pair 2 3 p} :=
  ⟨⟨by decide, by decide⟩, C6_cell_pair_bijection 2 3 (by decide) (by decide)⟩

/-- C7: for every maze and every valid cell, the right wall of the last
column and the bottom wall of the last row are reported present, regardless
of seed or carving outcome. -/
theorem C7_boundary_walls (m : PerfectMaze) (row column : Nat)
    (hrow : row < m.rows) (hcol : column < m.columns) :
    m.get_right_wall row (m.columns - 1) = some true ∧
    m.get_bottom_wall (m.rows - 1) column = some true := by
  have h1 : 1 ≤ m.columns := by omega
  have h2 : 1 ≤ m.rows := by omega
  exact ⟨get_right_wall_boundary hrow h1, get_bottom_wall_boundary hcol h2⟩

/-- Witness for C7 on the maze built by `new 2 3 0`. -/
theorem C7_boundary_walls_witness :
    ((0 : Nat) < (⟨2, 3, 0, [false, false, false, true, false, false, true]⟩ :
        PerfectMaze).rows ∧
      (0 : Nat) < (⟨2, 3, 0, [false, false, false, true, false, false, true]⟩ :
        PerfectMaze).columns) ∧
    ((⟨2, 3, 0, [false, false, false, true, false, false, true]⟩ :
        PerfectMaze).get_right_wall 0
        ((⟨2, 3, 0, [false, false, false, true, false, false, true]⟩ :
          PerfectMaze).columns - 1) = some true ∧
      (⟨2, 3, 0, [false, false, false, true, false, false, true]⟩ :
        PerfectMaze).get_bottom_wall
        ((⟨2, 3, 0, [false, false, false, true, false, false, true]⟩ :
          PerfectMaze).rows - 1) 0 = some true) :=
  ⟨⟨by decide, by decide⟩,
    C7_boundary_walls ⟨2, 3, 0, [false, false, false, true, false, false, true]⟩ 0 0
      (by decide) (by decide)⟩

/-- C8: on a maze built by `new`, the two wall queries return an empty result
exactly when the queried cell is outside the grid; out-of-range queries never
panic. -/
theorem C8_out_of_range (columns rows seed : Nat) (hc : 1 ≤ columns) (hr : 1 ≤ rows)
    (m : PerfectMaze) (hm : PerfectMaze.new columns rows seed = some m) (row col : Nat) :
    (m.get_right_wall row col = none ↔ (m.rows ≤ row ∨ m.columns ≤ col)) ∧
    (m.get_bottom_wall row col = none ↔ (m.rows ≤ row ∨ m.columns ≤ col)) := by
  obtain ⟨m', hnew, hcols, hrows, -, hlen, -⟩ := new_spec columns rows seed hc hr
  rw [hm] at hnew
  obtain rfl := Option.some.inj hnew
  have hlen' : m.walls.length = total_walls m.columns m.rows := by
    rw [hcols, hrows]; exact hlen
  constructor
  · constructor
    · intro hnone
      by_contra h
      push_neg at h
      have := @get_right_wall_isSome m hlen' row col (by omega) (by omega)
      rw [hnone] at this
      cases this
    · exact get_right_wall_none_of_invalid
  · constructor
    · intro hnone
      by_contra h
      push_neg at h
      have := @get_bottom_wall_isSome m hlen' row col (by omega) (by omega)
      rw [hnone] at this
      cases this
    · exact get_bottom_wall_none_of_invalid

/-- Witness for C8 on the maze built by `new 2 3 0`, queried at the
out-of-range cell `(3, 2)`. -/
theorem C8_out_of_range_witness :
    ((1 ≤ 2 ∧ 1 ≤ 3) ∧ PerfectMaze.new 2 3 0
      = some ⟨2, 3, 0, [false, false, false, true, false, false, true]⟩) ∧
    (((⟨2, 3, 0, [false, false, false, true, false, false, true]⟩ :
        PerfectMaze).get_right_wall 3 2 = none ↔
      ((⟨2, 3, 0, [false, false, false, true, false, false, true]⟩ :
        PerfectMaze).rows ≤ 3 ∨
       (⟨2, 3, 0, [false, false, false, true, false, false, true]⟩ :
        PerfectMaze).columns ≤ 2)) ∧
     ((⟨2, 3, 0, [false, false, false, true, false, false, true]⟩ :
        PerfectMaze).get_bottom_wall 3 2 = none ↔
      ((⟨2, 3, 0, [false, false, false, true, false, false, true]⟩ :
        PerfectMaze).rows ≤ 3 ∨
       (⟨2, 3, 0, [false, false, false, true, false, false, true]⟩ :
        PerfectMaze).columns ≤ 2))) :=
  ⟨⟨⟨by decide, by decide⟩, by decide⟩,
    C8_out_of_range 2 3 0 (by decide) (by decide)
      ⟨2, 3, 0, [false, false, false, true, false, false, true]⟩ (by decide) 3 2⟩

/-- C9: `PerfectMaze::new` fails (panics) exactly when a dimension is zero;
no maze is returned in that case, and construction succeeds for all positive
dimensions. -/
theorem C9_new_none_iff (columns rows seed : Nat) :
    PerfectMaze.new columns rows seed = none ↔ (columns = 0 ∨ rows = 0) := by
  constructor
  · intro hnone
    by_contra h
    push_neg at h
    obtain ⟨m, hsome, -⟩ := new_spec columns rows seed (by omega) (by omega)
    rw [hsome] at hnone
    cases hnone
  · intro h
    unfold PerfectMaze.new
    rw [if_pos h]

/-- C10: for positive dimensions nothing after the dimension assertions can
panic: the whole tumbling loop succeeds (every wall-array write is in bounds
and every `get_set_with_cell` unwrap finds a set), and both wall queries of
`Display` return `some` for every in-grid cell. -/
theorem C10_no_internal_panic (columns rows seed : Nat)
    (hc : 1 ≤ columns) (hr : 1 ≤ rows) :
    ∃ m, PerfectMaze.new columns rows seed = some m ∧
      ∀ row col, row < rows → col < columns →
        (m.get_right_wall row col).isSome = true ∧
        (m.get_bottom_wall row col).isSome = true := by
  obtain ⟨m, hnew, hcols, hrows, -, hlen, -⟩ := new_spec columns rows seed hc hr
  have hlen' : m.walls.length = total_walls m.columns m.rows := by
    rw [hcols, hrows]; exact hlen
  refine ⟨m, hnew, fun row col hrow hcol => ⟨?_, ?_⟩⟩
  · exact get_right_wall_isSome hlen' (by rw [hrows]; exact hrow)
      (by rw [hcols]; exact hcol)
  · exact get_bottom_wall_isSome hlen' (by rw [hrows]; exact hrow)
      (by rw [hcols]; exact hcol)

/-- Witness for C10 at `columns = 2`, `rows = 3`, `seed = 0`. -/
theorem C10_no_internal_panic_witness :
    (1 ≤ 2 ∧ 1 ≤ 3) ∧
    ∃ m, PerfectMaze.new 2 3 0 = some m ∧
      ∀ row col, row < 3 → col < 2 →
        (m.get_right_wall row col).isSome = true ∧
        (m.get_bottom_wall row col).isSome = true :=
  ⟨⟨by decide, by decide⟩, C10_no_internal_panic 2 3 0 (by decide) (by decide)⟩
